import Mathlib

/-!
Shallow embedding of the activity-log subsystem of `rmf_task` (`Log.cpp`).

The backing store of a `Log` is a `std::list<Log::Entry>` that only ever grows
by `emplace_back`, so positions of existing entries are stable.  We embed a
`std::list<Log::Entry>::const_iterator` that points at an entry as the `Nat`
index of that entry in the list; append-only growth makes these indices stable,
exactly like the node addresses of the C++ list.

A `shared_ptr<const std::list<Log::Entry>>` is embedded as the instance id
(`Nat`) of the sequence object it points to, and its raw address
(`shared.get()`, the key of the Reader's `memories` map) as the `addr` field of
the sequence object.  A `weak_ptr` is the instance id it observes; `lock()`
succeeds exactly when that instance is still alive.
-/

namespace RmfTask

/-- `Log::Entry::Tier` from `Log.hpp`/`Log.cpp`: severity of an entry. -/
inductive Tier where
  | Info : Tier
  | Warning : Tier
  | Error : Tier
deriving DecidableEq, Repr

/-- `Log::Entry`: tier, timestamp (a `system_clock::time_point`, embedded as an
integer tick count) and text.  `Log::Entry::Implementation::make` is the
structure constructor. -/
structure Entry where
  tier : Tier
  time : Int
  text : String
deriving DecidableEq, Repr

/-- `Log::Entry::Implementation::make`. -/
def Entry.make (tier : Tier) (time : Int) (text : String) : Entry :=
  ⟨tier, time, text⟩

/-- `Log::info`: appends `Entry::Implementation::make(Tier::Info, clock(), text)`
to the backing list.  The clock value is passed explicitly. -/
def Log.info (es : List Entry) (time : Int) (text : String) : List Entry :=
  es ++ [Entry.make Tier.Info time text]

/-- `Log::warn`. -/
def Log.warn (es : List Entry) (time : Int) (text : String) : List Entry :=
  es ++ [Entry.make Tier.Warning time text]

/-- `Log::error`. -/
def Log.error (es : List Entry) (time : Int) (text : String) : List Entry :=
  es ++ [Entry.make Tier.Error time text]

/-- `Log::insert`: appends a pre-constructed entry. -/
def Log.insert (es : List Entry) (e : Entry) : List Entry :=
  es ++ [e]

/-- `Log::View::Implementation`.  `seqId` embeds the strong
`shared_ptr<const list<Entry>>` (field `shared`) as the instance id of the
sequence it keeps alive; `addr` is `shared.get()`, the raw address used as the
Reader's registry key.  `vbegin`/`vlast` are the optional iterators `begin`
(first entry of the whole log) and `last` (last entry this view provides,
one-before `end()`). -/
structure View where
  seqId : Nat
  addr : Nat
  vbegin : Option Nat
  vlast : Option Nat
deriving DecidableEq, Repr

/-- `Log::View::Implementation::make`: if the entry list is empty both
iterators are `nullopt`; otherwise `begin = cbegin()` (index 0) and
`last = --cend()` (index `length - 1`). -/
def View.make (seqId addr : Nat) (es : List Entry) : View :=
  if es.isEmpty then ⟨seqId, addr, none, none⟩
  else ⟨seqId, addr, some 0, some (es.length - 1)⟩

/-- `Log::view()`: forwards to `View::Implementation::make(*this)`. -/
def Log.view (es : List Entry) (seqId addr : Nat) : View :=
  View.make seqId addr es

/-- The live part of `Log::Reader::Iterable::iterator::Implementation`:
iterator `it` and boundary iterator `last`. -/
structure ActiveCursor where
  it : Nat
  last : Nat
deriving DecidableEq, Repr

/-- A `Log::Reader::Iterable::iterator`: its `_pimpl` is either a live
implementation (`some`) or null (`none`), the latter being the `end()` /
exhausted sentinel produced by `iterator::Implementation::end()` (a
default-constructed iterator) and by `operator++` crossing the boundary. -/
abbrev Cursor := Option ActiveCursor

/-- `iterator::Implementation::end()`: a default-constructed iterator, whose
`_pimpl` is null. -/
def Cursor.endSentinel : Cursor := none

/-- `iterator::operator++`: reads `_pimpl->it`, so on a null `_pimpl` the
access is invalid — the result is `none`.  On a live cursor: if `it == last`
set `_pimpl = nullptr`, else `++it`. -/
def cursorInc (c : Cursor) : Option Cursor :=
  match c with
  | none => none
  | some a => if a.it = a.last then some none else some (some ⟨a.it + 1, a.last⟩)

/-- `iterator::operator==`: if either `_pimpl` is null, the iterators are equal
iff both are null; otherwise compare the `it` iterators. -/
def cursorEq (a b : Cursor) : Bool :=
  match a, b with
  | none, none => true
  | none, some _ => false
  | some _, none => false
  | some x, some y => x.it = y.it

/-- `iterator::operator*`: `*_pimpl->it`.  Invalid (`none`) when `_pimpl` is
null or the iterator is out of range. -/
def cursorDeref (es : List Entry) (c : Cursor) : Option Entry :=
  match c with
  | none => none
  | some a => es.get? a.it

/-- `Log::Reader::Iterable::Implementation`: the strong reference to the
sequence (as its instance id) and the stored optional begin iterator. -/
structure Iterable where
  seqId : Nat
  beginOpt : Option Cursor
deriving DecidableEq, Repr

/-- `Log::Reader::Iterable::Implementation::make`: if `begin` has a value the
stored begin iterator is built from `*begin` and `last.value()` — and
`last.value()` raises `bad_optional_access` when `last` is `nullopt`, which we
embed as the result `none`; otherwise the stored begin iterator is `end()`. -/
def Iterable.make (seqId : Nat) (b l : Option Nat) : Option Iterable :=
  match b with
  | some bi =>
    match l with
    | some li => some ⟨seqId, some (some ⟨bi, li⟩)⟩
    | none => none
  | none => some ⟨seqId, some Cursor.endSentinel⟩

/-- `Log::Reader::Iterable::begin()`: `_pimpl->begin.value_or(end())`. -/
def Iterable.beginIter (i : Iterable) : Cursor :=
  i.beginOpt.getD Cursor.endSentinel

/-- `Log::Reader::Iterable::end()`: `iterator::Implementation::end()`. -/
def Iterable.endIter (_ : Iterable) : Cursor :=
  Cursor.endSentinel

/-- `Log::Reader::Implementation::Memory`: a weak reference to the sequence
tracked under this registry key (embedded as the observed instance id, `none`
for a default-constructed empty `weak_ptr`) and the optional recorded
position `last`. -/
structure Memory where
  weak : Option Nat
  last : Option Nat
deriving DecidableEq, Repr

/-- `Memory()`: default constructed, empty weak reference and no position. -/
def Memory.init : Memory := ⟨none, none⟩

/-- The Reader's registry `std::unordered_map<const void*, Memory> memories`,
embedded as a total map from key (sequence address) to `Memory`; a key that
was never written holds the default-constructed `Memory()`, which is also what
`memories.insert({key, Memory()})` creates on first contact. -/
abbrev Mems := Nat → Memory

/-- The registry of a freshly constructed `Log::Reader`. -/
def Mems.init : Mems := fun _ => Memory.init

/-- Writing one slot of the registry through the iterator returned by
`memories.insert`. -/
def updateMems (mems : Mems) (k : Nat) (m : Memory) : Mems :=
  fun k' => if k' = k then m else mems k'

/-- A sequence object: the backing `std::list<Log::Entry>` instance.  `addr`
is its address (`shared.get()`), `entries` its contents, `alive` whether the
instance still exists (some strong reference remains). -/
structure SeqObj where
  addr : Nat
  entries : List Entry
  alive : Bool
deriving DecidableEq, Repr

/-- The heap of all sequence instances ever created; the instance id of an
object is its index.  Two simultaneously alive instances never share an
address, which the reachability relation `Step` enforces at allocation. -/
abbrev World := List SeqObj

/-- Whether the sequence instance `id` still exists. -/
def isAlive (w : World) (id : Nat) : Bool :=
  match w.get? id with
  | some s => s.alive
  | none => false

/-- `memory.weak.lock()` succeeds iff the observed instance is still alive;
a default-constructed (empty) weak reference never locks. -/
def lockSucceeds (w : World) (weak : Option Nat) : Bool :=
  match weak with
  | none => false
  | some id => isAlive w id

/-- Step 3 of `Log::Reader::Implementation::iterate` (the resume-or-reset on
the slot found or created by `memories.insert`): if `memory.weak.lock()`
succeeds, keep the slot, initialising `memory.last` to `v.begin` if it had no
value yet; otherwise reset the slot with `memory.weak = v.shared` and
`memory.last = v.begin`. -/
def resumedMemory (w : World) (memory : Memory) (v : View) : Memory :=
  if lockSucceeds w memory.weak then
    if memory.last.isNone then { memory with last := v.vbegin } else memory
  else ⟨some v.seqId, v.vbegin⟩

/-- `Log::Reader::Implementation::iterate`: look up or create the slot for
`v.shared.get()`, resume-or-reset it, build the Iterable from the slot's
position and `v.last` (which may raise, hence `Option`), then store `v.last`
as the slot's new position. -/
def Reader.iterate (w : World) (mems : Mems) (v : View) :
    Option (Mems × Iterable) :=
  let memory1 := resumedMemory w (mems v.addr) v
  (Iterable.make v.seqId memory1.last v.vlast).map
    (fun itb => (updateMems mems v.addr { memory1 with last := v.vlast }, itb))

/-- One step of a range-for over an Iterable: compare the cursor against
`end()` with `operator==`; if not equal, dereference with `operator*` and
advance with `operator++`.  `fuel` bounds the recursion; a `none` result means
an invalid access (or exhausted fuel). -/
def traverseAux (es : List Entry) : Nat → Cursor → Option (List Entry)
  | 0, _ => none
  | Nat.succ fuel, c =>
    if cursorEq c Cursor.endSentinel then some []
    else
      match cursorDeref es c, cursorInc c with
      | some e, some c' => (traverseAux es fuel c').map (fun rest => e :: rest)
      | _, _ => none

/-- Full traversal of an Iterable (the `for (const auto& entry : iterable)`
pattern), starting from `begin()`. -/
def Iterable.traverse (i : Iterable) (es : List Entry) (fuel : Nat) :
    Option (List Entry) :=
  traverseAux es fuel i.beginIter

/-- The first entry a traversal observes: `*iterable.begin()`. -/
def firstEntryOf (es : List Entry) (i : Iterable) : Option Entry :=
  cursorDeref es i.beginIter

/-- The inclusive range of entries from index `b` to index `l` in log order. -/
def sliceIncl (es : List Entry) (b l : Nat) : List Entry :=
  (es.drop b).take (l + 1 - b)

/-- The whole observable state of one producer/consumer system: the heap of
sequence instances, the outstanding Views (each holding a strong reference to
its sequence), and one Reader's registry. -/
structure SysState where
  world : World
  views : List View
  mems : Mems

/-- The initial state: no sequences, no views, a fresh Reader. -/
def SysState.init : SysState :=
  ⟨[], [], Mems.init⟩

/-- `v` is the View that `Log::view()` produced for sequence instance `v.seqId`
when that sequence held some prefix (of length `k`) of its current entries:
the instance is alive (the View's strong reference pins it), `v.addr` is its
address, and the bounds are those of `View::Implementation::make` at snapshot
time. -/
def ValidView (w : World) (v : View) : Prop :=
  ∃ obj : SeqObj, w.get? v.seqId = some obj ∧ obj.alive = true ∧
    obj.addr = v.addr ∧
    ∃ k : Nat, k ≤ obj.entries.length ∧
      ((k = 0 ∧ v.vbegin = none ∧ v.vlast = none) ∨
       (0 < k ∧ v.vbegin = some 0 ∧ v.vlast = some (k - 1)))

/-- The operations of the system.  `mkLog` allocates a fresh sequence at an
address no alive sequence occupies (the allocator can only reuse addresses of
destroyed objects); `append` is any of `Log::info/warn/error/insert`;
`takeView` is `Log::view()`; `dropView` releases a View; `destroy` drops the
last strong reference of a sequence (so no View of it may remain);
`doIterate` is `Reader::iterate` on an outstanding View. -/
inductive Step : SysState → SysState → Prop where
  | mkLog (s : SysState) (addr : Nat)
      (hfresh : ∀ obj ∈ s.world, obj.alive = true → obj.addr ≠ addr) :
      Step s ⟨s.world ++ [⟨addr, [], true⟩], s.views, s.mems⟩
  | append (s : SysState) (id : Nat) (e : Entry) (obj : SeqObj)
      (hid : s.world.get? id = some obj) (halive : obj.alive = true) :
      Step s ⟨s.world.set id { obj with entries := obj.entries ++ [e] },
        s.views, s.mems⟩
  | takeView (s : SysState) (id : Nat) (obj : SeqObj)
      (hid : s.world.get? id = some obj) (halive : obj.alive = true) :
      Step s ⟨s.world, Log.view obj.entries id obj.addr :: s.views, s.mems⟩
  | dropView (s : SysState) (v : View) :
      Step s ⟨s.world, s.views.erase v, s.mems⟩
  | destroy (s : SysState) (id : Nat) (obj : SeqObj)
      (hid : s.world.get? id = some obj)
      (hnoview : ∀ v ∈ s.views, v.seqId ≠ id) :
      Step s ⟨s.world.set id { obj with alive := false }, s.views, s.mems⟩
  | doIterate (s : SysState) (v : View) (m : Mems) (itb : Iterable)
      (hv : v ∈ s.views)
      (hres : Reader.iterate s.world s.mems v = some (m, itb)) :
      Step s ⟨s.world, s.views, m⟩

/-- A state the system can actually be in. -/
def Reachable (s : SysState) : Prop :=
  Relation.ReflTransGen Step SysState.init s

/-- The structural invariant of reachable states: (1) alive sequences have
pairwise distinct addresses; (2) outstanding Views are genuine snapshots of
alive sequences; (3) a slot's weak reference observes an instance whose
address is the slot's key; (4) if a slot both observes a still-alive instance
and has a recorded position, that instance is non-empty. -/
structure Inv (s : SysState) : Prop where
  aliveAddrInj : ∀ i j oi oj, s.world.get? i = some oi →
    s.world.get? j = some oj → oi.alive = true → oj.alive = true →
    oi.addr = oj.addr → i = j
  viewsValid : ∀ v ∈ s.views, ValidView s.world v
  memWeakAddr : ∀ k id, (s.mems k).weak = some id →
    ∃ obj, s.world.get? id = some obj ∧ obj.addr = k
  memLastAlive : ∀ k id obj, (s.mems k).weak = some id →
    s.world.get? id = some obj → obj.alive = true →
    ∀ p, (s.mems k).last = some p → obj.entries ≠ []

/-! ### Cursor stepping carries no Reader state -/

/-- The pair of one Reader registry and one live traversal cursor; stepping
the cursor is `iterator::operator++`, which only touches the iterator's own
`_pimpl`. -/
structure TravState where
  rmems : Mems
  cursor : Cursor

/-- Advancing the traversal once with `operator++`. -/
def stepTrav (ts : TravState) : Option TravState :=
  (cursorInc ts.cursor).map (fun c => ⟨ts.rmems, c⟩)

/-- Advancing the traversal `n` times. -/
def stepTravN : Nat → TravState → Option TravState
  | 0, ts => some ts
  | Nat.succ n, ts => (stepTrav ts).bind (stepTravN n)

/-! ### Concrete example data

A single Log whose owner appended `info("a")`, `warn("b")`, `error("c")`
(the scenario of the spec), plus the intermediate states used to exercise
the Reader. -/

def entryA : Entry := Entry.make Tier.Info 0 "a"

def entryB : Entry := Entry.make Tier.Warning 1 "b"

def entryC : Entry := Entry.make Tier.Error 2 "c"

/-- The backing list after the three appends. -/
def exEntries : List Entry := [entryA, entryB, entryC]

/-- One alive sequence, instance id 0, address 0, holding a, b, c. -/
def exWorld : World := [⟨0, exEntries, true⟩]

/-- The View `Log::view()` produced while only a and b existed. -/
def exViewOld : View := Log.view (exEntries.take 2) 0 0

/-- The View `Log::view()` produced after c was appended. -/
def exViewNew : View := Log.view exEntries 0 0

/-- The Reader registry after a fresh Reader consumed `exViewNew`. -/
def exM1 : Mems := updateMems Mems.init 0 ⟨some 0, some 2⟩

/-- The Iterable that consuming `exViewNew` from a fresh Reader produced. -/
def exItb1 : Iterable := ⟨0, some (some ⟨0, 2⟩)⟩

/-- A world with a single alive one-entry sequence. -/
def oneWorld : World := [⟨0, [entryA], true⟩]

/-- The view of that one-entry sequence. -/
def oneView : View := Log.view [entryA] 0 0

/-- The registry after consuming `oneView` once. -/
def oneMems : Mems := updateMems Mems.init 0 ⟨some 0, some 0⟩

/-- A world where instance 1 (the sequence a Reader used to track) is
destroyed and the new, unrelated instance 0 is alive at the same address 0. -/
def deadWorld : World := [⟨0, [entryA], true⟩, ⟨0, [], false⟩]

/-- A registry still tracking destroyed instance 1 at key 0, with a stale
recorded position. -/
def staleMems : Mems := updateMems Mems.init 0 ⟨some 1, some 7⟩

/-- State after `mkLog` at address 0. -/
def st1 : SysState := ⟨[⟨0, [], true⟩], [], Mems.init⟩

/-- The view taken from the still-empty log. -/
def emptyView : View := ⟨0, 0, none, none⟩

/-- State after `view()` on the empty log. -/
def st2 : SysState := ⟨[⟨0, [], true⟩], [emptyView], Mems.init⟩

/-- State after appending entry a. -/
def st3 : SysState := ⟨[⟨0, [entryA], true⟩], [emptyView], Mems.init⟩

/-- State after taking a second view, now of the one-entry log. -/
def st4 : SysState := ⟨[⟨0, [entryA], true⟩], [oneView, emptyView], Mems.init⟩

/-- State after the Reader consumed the one-entry view. -/
def st5 : SysState := ⟨[⟨0, [entryA], true⟩], [oneView, emptyView], oneMems⟩

/-! ### The invariant holds in every reachable state -/

lemma get?_append_elim {w : World} {x : SeqObj} {i : Nat} {o : SeqObj}
    (h : (w ++ [x]).get? i = some o) :
    w.get? i = some o ∨ (i = w.length ∧ o = x) := by
  rcases Nat.lt_or_ge i w.length with hlt | hge
  · left
    rw [List.get?_append hlt] at h
    exact h
  · right
    rw [List.get?_append_right hge] at h
    rcases Nat.lt_or_ge i (w.length + 1) with hlt1 | hge1
    · have : i - w.length = 0 := by omega
      rw [this] at h
      simp only [List.get?] at h
      exact ⟨by omega, (Option.some_injective _ h).symm⟩
    · have : i - w.length = (i - w.length - 1) + 1 := by omega
      rw [this] at h
      simp [List.get?] at h

lemma get?_set_elim {w : World} {id : Nat} {x : SeqObj} {i : Nat} {o : SeqObj}
    (h : (w.set id x).get? i = some o) :
    (i ≠ id ∧ w.get? i = some o) ∨ (i = id ∧ o = x ∧ id < w.length) := by
  rcases Decidable.em (i = id) with heq | hne
  · subst heq
    have hlt : i < w.length := by
      have h2 := (List.get?_eq_some.mp h).1
      simpa using h2
    rw [List.get?_set_eq_of_lt x hlt] at h
    exact Or.inr ⟨rfl, (Option.some_injective _ h).symm, hlt⟩
  · rw [List.get?_set_ne x w (fun hc => hne hc.symm)] at h
    exact Or.inl ⟨hne, h⟩

lemma inv_init : Inv SysState.init := by
  constructor
  · intro i j oi oj hi
    simp [SysState.init, List.get?] at hi
  · intro v hv
    simp [SysState.init] at hv
  · intro k id h
    simp [SysState.init, Mems.init, Memory.init] at h
  · intro k id obj h
    simp [SysState.init, Mems.init, Memory.init] at h

lemma view_seqId_eq (es : List Entry) (seqId addr : Nat) :
    (Log.view es seqId addr).seqId = seqId := by
  unfold Log.view View.make
  split <;> rfl

lemma view_addr_eq (es : List Entry) (seqId addr : Nat) :
    (Log.view es seqId addr).addr = addr := by
  unfold Log.view View.make
  split <;> rfl

lemma inv_step {s s' : SysState} (hinv : Inv s) (hstep : Step s s') : Inv s' := by
  cases hstep with
  | mkLog addr hfresh =>
    constructor
    · intro i j oi oj hi hj hai haj haddr
      rcases get?_append_elim hi with hi' | ⟨hi1, hi2⟩ <;>
        rcases get?_append_elim hj with hj' | ⟨hj1, hj2⟩
      · exact hinv.aliveAddrInj i j oi oj hi' hj' hai haj haddr
      · exfalso
        rw [hj2] at haddr
        exact hfresh oi (List.get?_mem hi') hai haddr
      · exfalso
        rw [hi2] at haddr
        exact hfresh oj (List.get?_mem hj') haj haddr.symm
      · omega
    · intro v hv
      obtain ⟨obj, hobj, hal, haddr, hsnap⟩ := hinv.viewsValid v hv
      have hlt : v.seqId < s.world.length := (List.get?_eq_some.mp hobj).1
      refine ⟨obj, ?_, hal, haddr, hsnap⟩
      rw [List.get?_append hlt]
      exact hobj
    · intro k id h
      obtain ⟨obj, hobj, haddr⟩ := hinv.memWeakAddr k id h
      have hlt : id < s.world.length := (List.get?_eq_some.mp hobj).1
      refine ⟨obj, ?_, haddr⟩
      rw [List.get?_append hlt]
      exact hobj
    · intro k id obj hweak hobj hal p hlast
      rcases get?_append_elim hobj with hobj' | ⟨hid, _⟩
      · exact hinv.memLastAlive k id obj hweak hobj' hal p hlast
      · exfalso
        obtain ⟨obj0, hobj0, _⟩ := hinv.memWeakAddr k id hweak
        have := (List.get?_eq_some.mp hobj0).1
        omega
  | append id e obj hid halive =>
    constructor
    · intro i j oi oj hi hj hai haj haddr
      rcases get?_set_elim hi with ⟨hni, hi'⟩ | ⟨hi1, hi2, _⟩ <;>
        rcases get?_set_elim hj with ⟨hnj, hj'⟩ | ⟨hj1, hj2, _⟩
      · exact hinv.aliveAddrInj i j oi oj hi' hj' hai haj haddr
      · rw [hj2] at haj haddr
        rw [hj1]
        exact hinv.aliveAddrInj i id oi obj hi' hid hai haj haddr
      · rw [hi2] at hai haddr
        rw [hi1]
        exact hinv.aliveAddrInj id j obj oj hid hj' hai haj haddr
      · omega
    · intro v hv
      obtain ⟨objv, hobjv, hal, haddr, k, hk, hsnap⟩ := hinv.viewsValid v hv
      rcases Decidable.em (v.seqId = id) with heq | hne
      · have hoo : objv = obj := by
          rw [heq, hid] at hobjv
          exact (Option.some_injective _ hobjv).symm
        refine ⟨{ obj with entries := obj.entries ++ [e] }, ?_, halive, ?_,
          k, ?_, hsnap⟩
        · rw [heq]
          exact List.get?_set_eq_of_lt _ (List.get?_eq_some.mp hid).1
        · exact hoo ▸ haddr
        · have hk' : k ≤ obj.entries.length := hoo ▸ hk
          simp only [List.length_append, List.length_cons]
          omega
      · refine ⟨objv, ?_, hal, haddr, k, hk, hsnap⟩
        rw [List.get?_set_ne _ _ (fun hc => hne hc.symm)]
        exact hobjv
    · intro k id' h
      obtain ⟨objm, hobjm, haddr⟩ := hinv.memWeakAddr k id' h
      rcases Decidable.em (id' = id) with heq | hne
      · have hoo : objm = obj := by
          rw [heq, hid] at hobjm
          exact (Option.some_injective _ hobjm).symm
        refine ⟨{ obj with entries := obj.entries ++ [e] }, ?_, ?_⟩
        · rw [heq]
          exact List.get?_set_eq_of_lt _ (List.get?_eq_some.mp hid).1
        · exact hoo ▸ haddr
      · refine ⟨objm, ?_, haddr⟩
        rw [List.get?_set_ne _ _ (fun hc => hne hc.symm)]
        exact hobjm
    · intro k id' obj' hweak hobj' hal p hlast
      rcases get?_set_elim hobj' with ⟨hne, hobj''⟩ | ⟨heq, hval, _⟩
      · exact hinv.memLastAlive k id' obj' hweak hobj'' hal p hlast
      · rw [hval]
        simp
  | takeView id obj hid halive =>
    constructor
    · exact hinv.aliveAddrInj
    · intro v hv
      rcases List.mem_cons.mp hv with heq | hmem
      · rw [heq]
        refine ⟨obj, ?_, halive, ?_, obj.entries.length, le_refl _, ?_⟩
        · rw [view_seqId_eq]
          exact hid
        · rw [view_addr_eq]
        · rcases Decidable.em (obj.entries = []) with hemp | hnemp
          · left
            refine ⟨by rw [hemp]; rfl, ?_, ?_⟩ <;>
              simp [Log.view, View.make, hemp]
          · right
            refine ⟨List.length_pos.mpr hnemp, ?_, ?_⟩ <;>
              simp [Log.view, View.make, List.isEmpty_iff, hnemp]
      · exact hinv.viewsValid v hmem
    · exact hinv.memWeakAddr
    · exact hinv.memLastAlive
  | dropView v =>
    constructor
    · exact hinv.aliveAddrInj
    · intro v' hv'
      exact hinv.viewsValid v' (List.mem_of_mem_erase hv')
    · exact hinv.memWeakAddr
    · exact hinv.memLastAlive
  | destroy id obj hid hnoview =>
    constructor
    · intro i j oi oj hi hj hai haj haddr
      rcases get?_set_elim hi with ⟨hni, hi'⟩ | ⟨hi1, hi2, _⟩
      · rcases get?_set_elim hj with ⟨hnj, hj'⟩ | ⟨hj1, hj2, _⟩
        · exact hinv.aliveAddrInj i j oi oj hi' hj' hai haj haddr
        · rw [hj2] at haj
          simp at haj
      · rw [hi2] at hai
        simp at hai
    · intro v hv
      obtain ⟨objv, hobjv, hal, haddr, hsnap⟩ := hinv.viewsValid v hv
      have hne : v.seqId ≠ id := hnoview v hv
      refine ⟨objv, ?_, hal, haddr, hsnap⟩
      rw [List.get?_set_ne _ _ (fun hc => hne hc.symm)]
      exact hobjv
    · intro k id' h
      obtain ⟨objm, hobjm, haddr⟩ := hinv.memWeakAddr k id' h
      rcases Decidable.em (id' = id) with heq | hne
      · have hoo : objm = obj := by
          rw [heq, hid] at hobjm
          exact (Option.some_injective _ hobjm).symm
        refine ⟨{ obj with alive := false }, ?_, ?_⟩
        · rw [heq]
          exact List.get?_set_eq_of_lt _ (List.get?_eq_some.mp hid).1
        · exact hoo ▸ haddr
      · refine ⟨objm, ?_, haddr⟩
        rw [List.get?_set_ne _ _ (fun hc => hne hc.symm)]
        exact hobjm
    · intro k id' obj' hweak hobj' hal p hlast
      rcases get?_set_elim hobj' with ⟨hne, hobj''⟩ | ⟨heq, hval, _⟩
      · exact hinv.memLastAlive k id' obj' hweak hobj'' hal p hlast
      · rw [hval] at hal
        simp at hal
  | doIterate v m itb hv hres =>
    obtain ⟨itb0, hmake, hpair⟩ := Option.map_eq_some'.mp hres
    have hm : m = updateMems s.mems v.addr
        { resumedMemory s.world (s.mems v.addr) v with last := v.vlast } := by
      have := congrArg Prod.fst hpair
      exact this.symm
    obtain ⟨objv, hobjv, halv, haddrv, kv, hkv, hsnapv⟩ := hinv.viewsValid v hv
    have hweakOf : ∀ id, (resumedMemory s.world (s.mems v.addr) v).weak = some id →
        (s.mems v.addr).weak = some id ∨ id = v.seqId := by
      intro id h
      unfold resumedMemory at h
      rcases hcase : lockSucceeds s.world (s.mems v.addr).weak with _ | _
      · rw [hcase] at h
        simp only [Bool.false_eq_true, if_false] at h
        right
        simpa using h.symm
      · rw [hcase] at h
        simp only [if_true] at h
        left
        rcases Decidable.em ((s.mems v.addr).last.isNone = true) with hl | hl
        · simp only [hl, if_true] at h
          exact h
        · simp only [hl, if_false] at h
          exact h
    constructor
    · exact hinv.aliveAddrInj
    · exact hinv.viewsValid
    · intro k id h
      rw [hm] at h
      rcases Decidable.em (k = v.addr) with heq | hne
      · rw [heq] at h ⊢
        simp only [updateMems, if_pos rfl] at h
        rcases hweakOf id h with hold | hnew
        · exact hinv.memWeakAddr v.addr id hold
        · rw [hnew]
          exact ⟨objv, hobjv, haddrv⟩
      · simp only [updateMems, if_neg hne] at h
        exact hinv.memWeakAddr k id h
    · intro k id obj hweak hobj hal p hlast
      rw [hm] at hweak hlast
      rcases Decidable.em (k = v.addr) with heq | hne
      · rw [heq] at hweak hlast
        simp only [updateMems, if_pos rfl] at hweak hlast
        have hvlast : v.vlast = some p := hlast
        have hne0 : objv.entries ≠ [] := by
          rcases hsnapv with ⟨_, _, hl⟩ | ⟨hk0, _, _⟩
          · rw [hl] at hvlast
            exact absurd hvlast (by simp)
          · intro hc
            rw [hc] at hkv
            simp at hkv
            omega
        have hid : id = v.seqId := by
          rcases hweakOf id hweak with hold | hnew
          · obtain ⟨objm, hobjm, haddrm⟩ := hinv.memWeakAddr v.addr id hold
            have hoo : objm = obj := by
              rw [hobjm] at hobj
              exact Option.some_injective _ hobj

            exact hinv.aliveAddrInj id v.seqId obj objv hobj hobjv hal halv
              ((hoo ▸ haddrm).trans haddrv.symm)
          · exact hnew
        have hoo2 : obj = objv := by
          rw [hid, hobjv] at hobj
          exact (Option.some_injective _ hobj).symm
        rw [hoo2]
        exact hne0
      · simp only [updateMems, if_neg hne] at hweak hlast
        exact hinv.memLastAlive k id obj hweak hobj hal p hlast


lemma reachable_inv {s : SysState} (h : Reachable s) : Inv s := by
  induction h with
  | refl => exact inv_init
  | tail _ hstep ih => exact inv_step ih hstep

/-! ### Traversal correctness -/

lemma traverseAux_done (es : List Entry) (fuel : Nat) :
    traverseAux es (fuel + 1) Cursor.endSentinel = some [] := by
  simp [traverseAux, cursorEq, Cursor.endSentinel]

lemma sliceIncl_singleton {es : List Entry} {l : Nat} (h : l < es.length) :
    sliceIncl es l l = [es.get ⟨l, h⟩] := by
  unfold sliceIncl
  have h2 : l + 1 - l = 1 := by omega
  rw [h2, List.drop_eq_get_cons h]
  rfl

lemma sliceIncl_cons {es : List Entry} {b l : Nat} (hbl : b < l)
    (hb : b < es.length) :
    sliceIncl es b l = es.get ⟨b, hb⟩ :: sliceIncl es (b + 1) l := by
  unfold sliceIncl
  have h2 : l + 1 - b = (l + 1 - (b + 1)) + 1 := by omega
  rw [h2, List.drop_eq_get_cons hb, List.take_succ_cons]

lemma traverseAux_spec (es : List Entry) :
    ∀ fuel b l, b ≤ l → l < es.length → l - b + 2 ≤ fuel →
      traverseAux es fuel (some ⟨b, l⟩) = some (sliceIncl es b l) := by
  intro fuel
  induction fuel with
  | zero =>
    intro b l _ _ h
    omega
  | succ f ih =>
    intro b l hbl hlen hfuel
    have hb : b < es.length := lt_of_le_of_lt hbl hlen
    have hget : es.get? b = some (es.get ⟨b, hb⟩) := List.get?_eq_get hb
    rcases Decidable.em (b = l) with heq | hne2
    · subst heq
      have hinc : cursorInc (some ⟨b, b⟩) = some none := by
        simp [cursorInc]
      obtain ⟨f2, hf2⟩ : ∃ f2, f = f2 + 1 := ⟨f - 1, by omega⟩
      have h1 : traverseAux es (f + 1) (some ⟨b, b⟩)
          = match cursorDeref es (some ⟨b, b⟩), cursorInc (some ⟨b, b⟩) with
            | some e, some c' => (traverseAux es f c').map (fun rest => e :: rest)
            | _, _ => none := rfl
      rw [h1, show cursorDeref es (some ⟨b, b⟩) = es.get? b from rfl, hget, hinc]
      show (traverseAux es f Cursor.endSentinel).map
        (fun rest => es.get ⟨b, hb⟩ :: rest) = some (sliceIncl es b b)
      rw [hf2, traverseAux_done, sliceIncl_singleton hlen]
      rfl
    · have hblt : b < l := by omega
      have hinc : cursorInc (some ⟨b, l⟩) = some (some ⟨b + 1, l⟩) := by
        rw [show cursorInc (some ⟨b, l⟩)
          = if b = l then some none else some (some ⟨b + 1, l⟩) from rfl,
          if_neg hne2]
      have h1 : traverseAux es (f + 1) (some ⟨b, l⟩)
          = match cursorDeref es (some ⟨b, l⟩), cursorInc (some ⟨b, l⟩) with
            | some e, some c' => (traverseAux es f c').map (fun rest => e :: rest)
            | _, _ => none := rfl
      rw [h1, show cursorDeref es (some ⟨b, l⟩) = es.get? b from rfl, hget, hinc]
      show (traverseAux es f (some ⟨b + 1, l⟩)).map
        (fun rest => es.get ⟨b, hb⟩ :: rest) = some (sliceIncl es b l)
      rw [ih (b + 1) l hblt hlen (by omega), sliceIncl_cons hblt hb]
      rfl

lemma sliceIncl_length {es : List Entry} {b l : Nat} (hbl : b ≤ l)
    (hlen : l < es.length) :
    (sliceIncl es b l).length = l + 1 - b := by
  unfold sliceIncl
  rw [List.length_take, List.length_drop]
  omega

lemma sliceIncl_getLast {es : List Entry} {b l : Nat} (hbl : b ≤ l)
    (hlen : l < es.length) :
    (sliceIncl es b l).getLast? = es.get? l := by
  rw [List.getLast?_eq_get?, sliceIncl_length hbl hlen]
  unfold sliceIncl
  rw [List.get?_take (by omega : l + 1 - b - 1 < l + 1 - b), List.get?_drop]
  congr 1
  omega

lemma sliceIncl_subset {es : List Entry} {b l : Nat} :
    ∀ e ∈ sliceIncl es b l, e ∈ es := by
  intro e he
  unfold sliceIncl at he
  exact List.drop_subset b es (List.take_subset _ _ he)

lemma sliceIncl_append {es extra : List Entry} {b l : Nat}
    (hb : b ≤ es.length) (hl : l < es.length) :
    sliceIncl (es ++ extra) b l = sliceIncl es b l := by
  unfold sliceIncl
  rw [List.drop_append_of_le_length hb]
  rw [List.take_append_of_le_length (by rw [List.length_drop]; omega)]

/-! ### Unfolding `Reader::iterate` -/

lemma iterate_eq_of_start_some {w : World} {mems : Mems} {v : View} {b l : Nat}
    (hstart : (resumedMemory w (mems v.addr) v).last = some b)
    (hlast : v.vlast = some l) :
    Reader.iterate w mems v = some
      (updateMems mems v.addr
        ⟨(resumedMemory w (mems v.addr) v).weak, some l⟩,
       ⟨v.seqId, some (some ⟨b, l⟩)⟩) := by
  show (Iterable.make v.seqId (resumedMemory w (mems v.addr) v).last v.vlast).map
      (fun itb => (updateMems mems v.addr
        { weak := (resumedMemory w (mems v.addr) v).weak, last := v.vlast }, itb))
      = some (updateMems mems v.addr
          ⟨(resumedMemory w (mems v.addr) v).weak, some l⟩,
        ⟨v.seqId, some (some ⟨b, l⟩)⟩)
  rw [hstart, hlast]
  rfl

lemma iterate_eq_of_start_none {w : World} {mems : Mems} {v : View}
    (hstart : (resumedMemory w (mems v.addr) v).last = none) :
    Reader.iterate w mems v = some
      (updateMems mems v.addr
        ⟨(resumedMemory w (mems v.addr) v).weak, v.vlast⟩,
       ⟨v.seqId, some Cursor.endSentinel⟩) := by
  show (Iterable.make v.seqId (resumedMemory w (mems v.addr) v).last v.vlast).map
      (fun itb => (updateMems mems v.addr
        { weak := (resumedMemory w (mems v.addr) v).weak, last := v.vlast }, itb))
      = some (updateMems mems v.addr
          ⟨(resumedMemory w (mems v.addr) v).weak, v.vlast⟩,
        ⟨v.seqId, some Cursor.endSentinel⟩)
  rw [hstart]
  rfl

lemma stepTravN_rmems : ∀ n ts ts', stepTravN n ts = some ts' →
    ts'.rmems = ts.rmems := by
  intro n
  induction n with
  | zero =>
    intro ts ts' h
    simp [stepTravN] at h
    rw [← h]
  | succ m ih =>
    intro ts ts' h
    simp only [stepTravN] at h
    obtain ⟨ts1, h1, h2⟩ := Option.bind_eq_some.mp h
    have := ih ts1 ts' h2
    rw [this]
    unfold stepTrav at h1
    obtain ⟨c, _, hc⟩ := Option.map_eq_some'.mp h1
    rw [← hc]

/-! ### Reachability of the concrete states -/

lemma step_init_st1 : Step SysState.init st1 := by
  have h := Step.mkLog SysState.init 0 (by intro obj hmem; simp [SysState.init] at hmem)
  exact h

lemma step_st1_st2 : Step st1 st2 :=
  Step.takeView st1 0 ⟨0, [], true⟩ rfl rfl

lemma step_st2_st3 : Step st2 st3 :=
  Step.append st2 0 entryA ⟨0, [], true⟩ rfl rfl

lemma step_st3_st4 : Step st3 st4 :=
  Step.takeView st3 0 ⟨0, [entryA], true⟩ rfl rfl

lemma step_st4_st5 : Step st4 st5 :=
  Step.doIterate st4 oneView oneMems ⟨0, some (some ⟨0, 0⟩)⟩
    (List.mem_cons_self _ _) rfl

lemma reach_st1 : Reachable st1 :=
  Relation.ReflTransGen.single step_init_st1

lemma reach_st4 : Reachable st4 :=
  Relation.ReflTransGen.tail (Relation.ReflTransGen.tail
    (Relation.ReflTransGen.tail reach_st1 step_st1_st2) step_st2_st3) step_st3_st4

lemma reach_st5 : Reachable st5 :=
  Relation.ReflTransGen.tail reach_st4 step_st4_st5

/-! ### Claim C6: `view()` reflects the current extent -/

/-- C6: `Log::view()` snapshots the sequence's current extent: on an empty
sequence both bounds are none; on a non-empty sequence the begin bound is the
position of the first entry (index 0, the head) and the last bound is the
position of the last entry currently present (index `length - 1`, whose entry
is `getLast?`). -/
theorem view_current_extent (es : List Entry) (seqId addr : Nat) :
    (es = [] → Log.view es seqId addr = ⟨seqId, addr, none, none⟩) ∧
    (es ≠ [] →
      (Log.view es seqId addr).vbegin = some 0 ∧
      (Log.view es seqId addr).vlast = some (es.length - 1) ∧
      es.get? 0 = es.head? ∧
      es.get? (es.length - 1) = es.getLast?) := by
  constructor
  · intro h
    simp [Log.view, View.make, h]
  · intro h
    refine ⟨?_, ?_, ?_, (List.getLast?_eq_get? es).symm⟩
    · simp [Log.view, View.make, List.isEmpty_iff, h]
    · simp [Log.view, View.make, List.isEmpty_iff, h]
    · cases es with
      | nil => exact absurd rfl h
      | cons a t => rfl

/-- Witness for C6 at concrete inputs: the empty log and the a, b, c log. -/
theorem view_current_extent_witness :
    Log.view ([] : List Entry) 0 0 = ⟨0, 0, none, none⟩ ∧
    (Log.view exEntries 0 0).vbegin = some 0 ∧
    (Log.view exEntries 0 0).vlast = some 2 :=
  ⟨(view_current_extent [] 0 0).1 rfl,
   ((view_current_extent exEntries 0 0).2 (by decide)).1,
   ((view_current_extent exEntries 0 0).2 (by decide)).2.1⟩

/-! ### Claim C7: the Done cursor -/

/-- C7 is false as stated: advancing a Done cursor (null `_pimpl`) is not a
no-op that safely stays Done — `operator++` reads `_pimpl->it` through the
null pointer, an invalid access (`none`), instead of returning the Done
cursor (`some Cursor.endSentinel`). -/
theorem advancing_done_cursor_invalid :
    cursorInc Cursor.endSentinel = none ∧
    (none : Option Cursor) ≠ some Cursor.endSentinel :=
  ⟨rfl, by decide⟩

/-- C7 (amended): advancing a Done cursor dereferences the null
implementation — an invalid access, not a safe no-op; a Done cursor compares
equal to another Done cursor and never equal to an Active cursor, and two
Active cursors compare equal iff they sit at the same position. -/
theorem done_cursor_spec (a : ActiveCursor) :
    cursorInc Cursor.endSentinel = none ∧
    cursorEq Cursor.endSentinel Cursor.endSentinel = true ∧
    cursorEq Cursor.endSentinel (some a) = false ∧
    cursorEq (some a) Cursor.endSentinel = false :=
  ⟨rfl, rfl, rfl, rfl⟩

/-- Witness for C7 (amended) at the Active cursor sitting at position 0 with
boundary 2. -/
theorem done_cursor_spec_witness :
    cursorInc Cursor.endSentinel = none ∧
    cursorEq Cursor.endSentinel Cursor.endSentinel = true ∧
    cursorEq Cursor.endSentinel (some ⟨0, 2⟩) = false ∧
    cursorEq (some ⟨0, 2⟩) Cursor.endSentinel = false :=
  done_cursor_spec ⟨0, 2⟩

/-! ### Claim C5: the recorded position -/

/-- C5 is false as stated: the Reader's recorded position can move backward.
A fresh Reader consumes the three-entry view (position becomes index 2), then
consumes the stale two-entry view of the same sequence (position becomes
index 1 < 2). -/
theorem recorded_position_moves_backward :
    (Reader.iterate exWorld Mems.init exViewNew).map (fun r => (r.1 0).last)
      = some (some 2) ∧
    ((Reader.iterate exWorld Mems.init exViewNew).bind
      (fun r => Reader.iterate exWorld r.1 exViewOld)).map
        (fun r => (r.1 0).last) = some (some 1) ∧
    (1 : Nat) < 2 :=
  ⟨rfl, rfl, by omega⟩

/-- C5 (amended): after every `iterate` call the recorded position for the
View's identity equals that View's last bound; consequently the position
moves forward across successive calls whenever the Views are presented in
snapshot order (each View's last bound at or after the previously recorded
position), and only a stale, older View can move it backward. -/
theorem iterate_sets_position_to_view_last
    (w : World) (mems : Mems) (v : View) (m : Mems) (itb : Iterable)
    (h : Reader.iterate w mems v = some (m, itb)) :
    (m v.addr).last = v.vlast ∧
    (∀ p q, (mems v.addr).last = some p → v.vlast = some q → p ≤ q →
      ∃ r, (m v.addr).last = some r ∧ p ≤ r) := by
  obtain ⟨itb0, hmake, hpair⟩ := Option.map_eq_some'.mp h
  have hm : m = updateMems mems v.addr
      { resumedMemory w (mems v.addr) v with last := v.vlast } :=
    (congrArg Prod.fst hpair).symm
  constructor
  · rw [hm]
    simp [updateMems]
  · intro p q hp hq hpq
    refine ⟨q, ?_, hpq⟩
    rw [hm]
    simp [updateMems, hq]

/-- Witness for C5 (amended): a fresh Reader consuming the three-entry view
records position 2 = the view's last bound. -/
theorem iterate_sets_position_witness :
    (exM1 exViewNew.addr).last = exViewNew.vlast ∧
    (∀ p q, (Mems.init exViewNew.addr).last = some p →
      exViewNew.vlast = some q → p ≤ q →
      ∃ r, (exM1 exViewNew.addr).last = some r ∧ p ≤ r) :=
  iterate_sets_position_to_view_last exWorld Mems.init exViewNew exM1 exItb1 rfl

/-! ### Claim C9: traversal has no effect on the Reader -/

/-- C9: the advancement of the Reader's recorded position to the View's last
bound happens entirely at `iterate` call time, and advancing the returned
Iterable's cursor any number of times (including zero — discarding it early)
leaves the Reader registry exactly as `iterate` left it: `operator++` touches
only the cursor's own `_pimpl`. -/
theorem traversal_leaves_reader_unchanged
    (w : World) (mems : Mems) (v : View) (m : Mems) (itb : Iterable)
    (h : Reader.iterate w mems v = some (m, itb)) (n : Nat)
    (ts : TravState) (hts : stepTravN n ⟨m, itb.beginIter⟩ = some ts) :
    ts.rmems = m ∧ (m v.addr).last = v.vlast := by
  constructor
  · exact stepTravN_rmems n _ ts hts
  · obtain ⟨itb0, hmake, hpair⟩ := Option.map_eq_some'.mp h
    have hm : m = updateMems mems v.addr
        { resumedMemory w (mems v.addr) v with last := v.vlast } :=
      (congrArg Prod.fst hpair).symm
    rw [hm]
    simp [updateMems]

/-- Witness for C9: one advance of the cursor of the Iterable obtained from
the three-entry view leaves the registry exactly `exM1`. -/
theorem traversal_leaves_reader_witness :
    TravState.rmems ⟨exM1, some ⟨1, 2⟩⟩ = exM1 ∧
    (exM1 exViewNew.addr).last = exViewNew.vlast :=
  traversal_leaves_reader_unchanged exWorld Mems.init exViewNew exM1 exItb1 rfl
    1 ⟨exM1, some ⟨1, 2⟩⟩ rfl

/-! ### Claim C1: what `iterate` delivers -/

/-- C1 is false as stated: when the slot's recorded position (after
resume-or-reset) lies past the View's last bound — here position 2 after
consuming the three-entry view, then iterating the stale two-entry view whose
last bound is 1 — the Iterable does not contain "exactly the entries from the
recorded position up to the last bound" (an empty range): its first element
is the entry at index 2, beyond the View's bound, and the traversal then runs
past the boundary into an invalid dereference instead of producing the empty
range. -/
theorem iterate_delivery_cex :
    ((Reader.iterate exWorld Mems.init exViewNew).bind
      (fun r => Reader.iterate exWorld r.1 exViewOld)).map
        (fun r => r.2.traverse exEntries (exEntries.length + 1)) = some none ∧
    sliceIncl exEntries 2 1 = [] ∧
    ((Reader.iterate exWorld Mems.init exViewNew).bind
      (fun r => Reader.iterate exWorld r.1 exViewOld)).map
        (fun r => firstEntryOf exEntries r.2) = some (some entryC) ∧
    (some (some ([] : List Entry)) : Option (Option (List Entry))) ≠ some none :=
  ⟨rfl, rfl, rfl, by decide⟩

/-- C1 (amended): whenever the slot's recorded position after the
resume-or-reset of step 3 is an entry position `b` that does not lie past the
View's last bound `l` (always the case when Views of an identity reach
`iterate` in snapshot order), `iterate` returns an Iterable that delivers
exactly the entries from position `b` up to position `l` inclusive, in log
order, and as a side effect records the View's last bound as the slot's new
position. -/
theorem iterate_delivers_recorded_to_last
    (w : World) (mems : Mems) (v : View) (es : List Entry) (b l : Nat)
    (hstart : (resumedMemory w (mems v.addr) v).last = some b)
    (hlast : v.vlast = some l)
    (hbl : b ≤ l) (hlen : l < es.length) :
    ∃ m itb, Reader.iterate w mems v = some (m, itb) ∧
      itb.traverse es (es.length + 1) = some (sliceIncl es b l) ∧
      (m v.addr).last = v.vlast := by
  refine ⟨_, _, iterate_eq_of_start_some hstart hlast, ?_, ?_⟩
  · show traverseAux es (es.length + 1) (some ⟨b, l⟩) = some (sliceIncl es b l)
    exact traverseAux_spec es (es.length + 1) b l hbl hlen (by omega)
  · simp [updateMems, hlast]

/-- Witness for C1 (amended): a fresh Reader consuming the three-entry view
receives exactly a, b, c. -/
theorem iterate_delivers_witness :
    ∃ m itb, Reader.iterate exWorld Mems.init exViewNew = some (m, itb) ∧
      itb.traverse exEntries (exEntries.length + 1)
        = some (sliceIncl exEntries 0 2) ∧
      (m exViewNew.addr).last = exViewNew.vlast :=
  iterate_delivers_recorded_to_last exWorld Mems.init exViewNew exEntries 0 2
    rfl rfl (by omega) (by decide)

/-! ### Claim C2: snapshot isolation -/

/-- C2 is false as stated: `exViewOld` was produced by `view()` when only a
and b existed, yet after the Reader has consumed the newer three-entry view,
the Iterable built from `exViewOld` delivers entry c first — an entry
appended after `exViewOld` was taken is observable through it. -/
theorem snapshot_isolation_cex :
    exViewOld = Log.view (exEntries.take 2) 0 0 ∧
    ((Reader.iterate exWorld Mems.init exViewNew).bind
      (fun r => Reader.iterate exWorld r.1 exViewOld)).map
        (fun r => firstEntryOf exEntries r.2) = some (some entryC) ∧
    entryC ∉ exEntries.take 2 :=
  ⟨rfl, rfl, by decide⟩

/-- C2 (amended): a View's bounds are fixed at creation, and as long as the
Reader's recorded position does not lie past the View's snapshot (always the
case when Views of an identity are consumed in snapshot order), every entry
an Iterable built from the View delivers existed when the View was created:
iterating a view of the first `es0` entries over the grown sequence
`es0 ++ extra` delivers only members of `es0`. -/
theorem view_snapshot_isolation
    (w : World) (mems : Mems) (es0 extra : List Entry) (seqId addr b : Nat)
    (hne : es0 ≠ [])
    (hstart : (resumedMemory w (mems addr) (Log.view es0 seqId addr)).last
      = some b)
    (hb : b ≤ es0.length - 1) :
    ∃ m itb, Reader.iterate w mems (Log.view es0 seqId addr) = some (m, itb) ∧
      ∃ out, itb.traverse (es0 ++ extra) ((es0 ++ extra).length + 1)
          = some out ∧
        out = sliceIncl es0 b (es0.length - 1) ∧
        ∀ e ∈ out, e ∈ es0 := by
  have hpos : 0 < es0.length := List.length_pos.mpr hne
  have haddr : (Log.view es0 seqId addr).addr = addr := view_addr_eq es0 seqId addr
  have hlast : (Log.view es0 seqId addr).vlast = some (es0.length - 1) := by
    simp [Log.view, View.make, List.isEmpty_iff, hne]
  have hstart2 : (resumedMemory w
      (mems (Log.view es0 seqId addr).addr) (Log.view es0 seqId addr)).last
      = some b := by
    rw [haddr]
    exact hstart
  have hlen : es0.length - 1 < (es0 ++ extra).length := by
    rw [List.length_append]
    omega
  obtain ⟨m, itb, hit, htrav, _⟩ := iterate_delivers_recorded_to_last w mems
    (Log.view es0 seqId addr) (es0 ++ extra) b (es0.length - 1)
    hstart2 hlast (by omega) hlen
  refine ⟨m, itb, hit, sliceIncl es0 b (es0.length - 1), ?_, rfl, ?_⟩
  · rw [htrav, sliceIncl_append (by omega) (by omega)]
  · intro e he
    exact sliceIncl_subset e he

/-- Witness for C2 (amended): the view of [a, b], iterated by a fresh Reader
after c was appended, delivers exactly a and b. -/
theorem view_snapshot_isolation_witness :
    ∃ m itb, Reader.iterate exWorld Mems.init
        (Log.view [entryA, entryB] 0 0) = some (m, itb) ∧
      ∃ out, itb.traverse ([entryA, entryB] ++ [entryC])
          (([entryA, entryB] ++ [entryC]).length + 1) = some out ∧
        out = sliceIncl [entryA, entryB] 0 ([entryA, entryB].length - 1) ∧
        ∀ e ∈ out, e ∈ [entryA, entryB] :=
  view_snapshot_isolation exWorld Mems.init [entryA, entryB] [entryC] 0 0 0
    (by decide) rfl (by omega)

/-! ### Claim C3: identity reset -/

/-- C3: when the liveness check on the slot's weak reference fails — first
encounter, or the previously tracked EntrySequence is destroyed and a
different sequence reuses the same identity key — `iterate` resets the slot:
it records a fresh weak reference to the current sequence and starts delivery
from the View's begin bound (the whole snapshot), never from the stale
recorded position. -/
theorem iterate_identity_reset
    (w : World) (mems : Mems) (v : View) (es : List Entry) (l : Nat)
    (hlock : lockSucceeds w (mems v.addr).weak = false)
    (hb : v.vbegin = some 0) (hl : v.vlast = some l) (hlen : l < es.length) :
    ∃ m itb, Reader.iterate w mems v = some (m, itb) ∧
      (m v.addr).weak = some v.seqId ∧
      (m v.addr).last = some l ∧
      itb.traverse es (es.length + 1) = some (sliceIncl es 0 l) ∧
      firstEntryOf es itb = es.get? 0 := by
  have hres : resumedMemory w (mems v.addr) v = ⟨some v.seqId, v.vbegin⟩ := by
    unfold resumedMemory
    rw [hlock]
    simp
  have hstart : (resumedMemory w (mems v.addr) v).last = some 0 := by
    rw [hres, hb]
  refine ⟨_, _, iterate_eq_of_start_some hstart hl, ?_, ?_, ?_, rfl⟩
  · simp [updateMems, hres]
  · simp [updateMems]
  · show traverseAux es (es.length + 1) (some ⟨0, l⟩) = some (sliceIncl es 0 l)
    exact traverseAux_spec es (es.length + 1) 0 l (Nat.zero_le l) hlen (by omega)

/-- Witness for C3: the Reader's slot for address 0 tracks destroyed instance
1 with stale position 7; iterating the view of the new, unrelated instance 0
resets the slot to instance 0 and delivers the new sequence from its begin
bound. -/
theorem iterate_identity_reset_witness :
    ∃ m itb, Reader.iterate deadWorld staleMems oneView = some (m, itb) ∧
      (m oneView.addr).weak = some oneView.seqId ∧
      (m oneView.addr).last = some 0 ∧
      itb.traverse [entryA] ([entryA].length + 1)
        = some (sliceIncl [entryA] 0 0) ∧
      firstEntryOf [entryA] itb = [entryA].get? 0 :=
  iterate_identity_reset deadWorld staleMems oneView [entryA] 0
    rfl rfl rfl (by decide)

/-! ### Claim C4: boundary re-delivery -/

/-- C4: with no entries appended between two successive `iterate` calls on
Views of the same non-empty identity, the second call re-delivers the
boundary entry: the stored resume position is the previous View's last bound
`l` and the next call's inclusive starting point is that same position, so
the second Iterable's first (and here only) entry is the entry at `l`, the
same entry the first Iterable delivered last. -/
theorem iterate_boundary_redelivery
    (w : World) (mems : Mems) (es : List Entry) (v : View) (l b : Nat)
    (m1 m2 : Mems) (it1 it2 : Iterable)
    (hstart : (resumedMemory w (mems v.addr) v).last = some b)
    (hl : v.vlast = some l) (hbl : b ≤ l) (hlen : l < es.length)
    (h1 : Reader.iterate w mems v = some (m1, it1))
    (hlock2 : lockSucceeds w (m1 v.addr).weak = true)
    (h2 : Reader.iterate w m1 v = some (m2, it2)) :
    ∃ e, es.get? l = some e ∧
      it1.traverse es (es.length + 1) = some (sliceIncl es b l) ∧
      (sliceIncl es b l).getLast? = some e ∧
      firstEntryOf es it2 = some e ∧
      it2.traverse es (es.length + 1) = some [e] := by
  have hh1 := (iterate_eq_of_start_some hstart hl).symm.trans h1
  have hp1 := Option.some_injective _ hh1
  have hm1 : m1 = updateMems mems v.addr
      ⟨(resumedMemory w (mems v.addr) v).weak, some l⟩ :=
    (congrArg Prod.fst hp1).symm
  have hit1 : it1 = ⟨v.seqId, some (some ⟨b, l⟩)⟩ :=
    (congrArg Prod.snd hp1).symm
  have hm1last : (m1 v.addr).last = some l := by
    rw [hm1]
    simp [updateMems]
  have hstart2 : (resumedMemory w (m1 v.addr) v).last = some l := by
    simp [resumedMemory, hlock2, hm1last]
  have hh2 := (iterate_eq_of_start_some hstart2 hl).symm.trans h2
  have hp2 := Option.some_injective _ hh2
  have hit2 : it2 = ⟨v.seqId, some (some ⟨l, l⟩)⟩ :=
    (congrArg Prod.snd hp2).symm
  refine ⟨es.get ⟨l, hlen⟩, List.get?_eq_get hlen, ?_, ?_, ?_, ?_⟩
  · rw [hit1]
    show traverseAux es (es.length + 1) (some ⟨b, l⟩) = some (sliceIncl es b l)
    exact traverseAux_spec es (es.length + 1) b l hbl hlen (by omega)
  · rw [sliceIncl_getLast hbl hlen]
    exact List.get?_eq_get hlen
  · rw [hit2]
    show es.get? l = some (es.get ⟨l, hlen⟩)
    exact List.get?_eq_get hlen
  · rw [hit2]
    show traverseAux es (es.length + 1) (some ⟨l, l⟩) = some [es.get ⟨l, hlen⟩]
    rw [traverseAux_spec es (es.length + 1) l l (le_refl l) hlen (by omega)]
    rw [sliceIncl_singleton hlen]

/-- Witness for C4: on the one-entry log, a fresh Reader's first call
delivers [a]; the immediately following call on the same view delivers [a]
again — the boundary entry repeats. -/
theorem iterate_boundary_redelivery_witness :
    ∃ e, [entryA].get? 0 = some e ∧
      Iterable.traverse ⟨0, some (some ⟨0, 0⟩)⟩ [entryA] ([entryA].length + 1)
        = some (sliceIncl [entryA] 0 0) ∧
      (sliceIncl [entryA] 0 0).getLast? = some e ∧
      firstEntryOf [entryA] ⟨0, some (some ⟨0, 0⟩)⟩ = some e ∧
      Iterable.traverse ⟨0, some (some ⟨0, 0⟩)⟩ [entryA] ([entryA].length + 1)
        = some [e] :=
  iterate_boundary_redelivery oneWorld Mems.init [entryA] oneView 0 0
    oneMems (updateMems oneMems 0 ⟨some 0, some 0⟩)
    ⟨0, some (some ⟨0, 0⟩)⟩ ⟨0, some (some ⟨0, 0⟩)⟩
    rfl rfl (le_refl 0) (by decide) rfl rfl rfl

/-! ### Claim C8: the empty log -/

/-- C8: in any reachable state, iterating a View taken from an alive sequence
that currently has zero entries yields an empty Iterable — its begin cursor
compares equal to its end cursor and traversal delivers nothing — and the
call does not fail (`info`, `warn`, `error`, `insert` and `view` are total by
construction, and `iterate` returns a value here): absence of data is an
empty result, never an error. -/
theorem empty_log_iterate_empty
    {s : SysState} (hreach : Reachable s) (id : Nat) (obj : SeqObj) (v : View)
    (hobj : s.world.get? id = some obj) (hal : obj.alive = true)
    (hemp : obj.entries = []) (hv : v = Log.view obj.entries id obj.addr)
    (es : List Entry) (fuel : Nat) :
    ∃ m itb, Reader.iterate s.world s.mems v = some (m, itb) ∧
      cursorEq itb.beginIter (itb.endIter) = true ∧
      itb.traverse es (fuel + 1) = some [] := by
  have hinv := reachable_inv hreach
  have hvb : v.vbegin = none := by
    rw [hv, hemp]
    rfl
  have hvaddr : v.addr = obj.addr := by
    rw [hv]
    exact view_addr_eq _ _ _
  have hstart : (resumedMemory s.world (s.mems v.addr) v).last = none := by
    unfold resumedMemory
    rcases hcase : lockSucceeds s.world (s.mems v.addr).weak with _ | _
    · simp [hvb]
    · rw [if_pos rfl]
      have hsome : ∃ id2, (s.mems v.addr).weak = some id2 ∧
          isAlive s.world id2 = true := by
        cases hw : (s.mems v.addr).weak with
        | none =>
          rw [hw] at hcase
          simp [lockSucceeds] at hcase
        | some id2 =>
          refine ⟨id2, rfl, ?_⟩
          rw [hw] at hcase
          simpa [lockSucceeds] using hcase
      obtain ⟨id2, hw2, halive2⟩ := hsome
      obtain ⟨obj2, hobj2, haddr2⟩ := hinv.memWeakAddr v.addr id2 hw2
      have hal2 : obj2.alive = true := by
        unfold isAlive at halive2
        rw [hobj2] at halive2
        exact halive2
      have hid2 : id2 = id := hinv.aliveAddrInj id2 id obj2 obj hobj2 hobj
        hal2 hal (by rw [haddr2, hvaddr])
      have heq2 : obj2 = obj := by
        rw [hid2, hobj] at hobj2
        exact (Option.some_injective _ hobj2).symm
      have hlastnone : (s.mems v.addr).last = none := by
        cases hlast : (s.mems v.addr).last with
        | none => rfl
        | some p =>
          exact absurd (by rw [heq2, hemp])
            (hinv.memLastAlive v.addr id2 obj2 hw2 hobj2 hal2 p hlast)
      simp [hlastnone, hvb]
  refine ⟨_, _, iterate_eq_of_start_none hstart, rfl, ?_⟩
  show traverseAux es (fuel + 1) Cursor.endSentinel = some []
  exact traverseAux_done es fuel

/-- Witness for C8: the freshly created empty log of state `st1` and its view;
iteration succeeds with an empty result. -/
theorem empty_log_iterate_witness :
    ∃ m itb, Reader.iterate st1.world st1.mems emptyView = some (m, itb) ∧
      cursorEq itb.beginIter (itb.endIter) = true ∧
      itb.traverse [] 1 = some [] :=
  empty_log_iterate_empty reach_st1 0 ⟨0, [], true⟩ emptyView rfl rfl rfl rfl [] 0

/-! ### Claim C10: the `last.value()` access in `Iterable::make` -/

/-- C10 is false as stated: `st5` is a reachable state (log created, empty
view taken, entry appended, one-entry view taken and consumed by the Reader),
`emptyView` is an outstanding View produced by `view()`, and in the
`iterate(emptyView)` call the starting position has a value (index 0) while
the View's last bound is none, so the `last.value()` access fails: `iterate`
returns no Iterable. -/
theorem iterate_value_access_cex :
    Reachable st5 ∧ emptyView ∈ st5.views ∧
    (resumedMemory st5.world (st5.mems emptyView.addr) emptyView).last
      = some 0 ∧
    emptyView.vlast = none ∧
    Reader.iterate st5.world st5.mems emptyView = none :=
  ⟨reach_st5, by decide, rfl, rfl, rfl⟩

/-- C10 (amended): in a reachable state, for an outstanding View, the
`last.value()` access inside `iterate` succeeds whenever the slot has no
recorded position or the View's snapshot is non-empty — in particular
whenever Views of each identity reach `iterate` in the order they were taken.
Only replaying an empty-snapshot View after a position was recorded for that
identity makes it fail. -/
theorem iterate_value_access_safe
    {s : SysState} (hreach : Reachable s) (v : View) (hv : v ∈ s.views)
    (hcond : (s.mems v.addr).last = none ∨ v.vlast ≠ none) :
    ∃ m itb, Reader.iterate s.world s.mems v = some (m, itb) := by
  have hinv := reachable_inv hreach
  obtain ⟨obj, hobj, hal, haddr, k, hk, hsnap⟩ := hinv.viewsValid v hv
  have hcorr : (v.vbegin = none ∧ v.vlast = none) ∨
      ∃ l, v.vbegin = some 0 ∧ v.vlast = some l := by
    rcases hsnap with ⟨_, hb, hl⟩ | ⟨_, hb, hl⟩
    · exact Or.inl ⟨hb, hl⟩
    · exact Or.inr ⟨k - 1, hb, hl⟩
  cases hstart : (resumedMemory s.world (s.mems v.addr) v).last with
  | none => exact ⟨_, _, iterate_eq_of_start_none hstart⟩
  | some b =>
    have hvl : ∃ l, v.vlast = some l := by
      unfold resumedMemory at hstart
      rcases hcase : lockSucceeds s.world (s.mems v.addr).weak with _ | _
      · rw [hcase] at hstart
        simp only [Bool.false_eq_true, if_false] at hstart
        have hstart2 : v.vbegin = some b := hstart
        rcases hcorr with ⟨hb, _⟩ | ⟨l, _, hl⟩
        · rw [hb] at hstart2
          exact absurd hstart2 (by simp)
        · exact ⟨l, hl⟩
      · rw [hcase] at hstart
        simp only [if_true] at hstart
        rcases hnone : (s.mems v.addr).last.isNone with _ | _
        · rw [hnone] at hstart
          simp only [Bool.false_eq_true, if_false] at hstart
          rcases hcond with hc | hc
          · exact absurd (hc.symm.trans hstart) (by simp)
          · cases hvl2 : v.vlast with
            | none => exact absurd hvl2 hc
            | some l => exact ⟨l, rfl⟩
        · rw [hnone] at hstart
          simp only [if_true] at hstart
          have hstart2 : v.vbegin = some b := hstart
          rcases hcorr with ⟨hb, _⟩ | ⟨l, _, hl⟩
          · rw [hb] at hstart2
            exact absurd hstart2 (by simp)
          · exact ⟨l, hl⟩
    obtain ⟨l, hl⟩ := hvl
    exact ⟨_, _, iterate_eq_of_start_some hstart hl⟩

/-- Witness for C10 (amended): in reachable state `st5`, re-iterating the
outstanding one-entry view (non-empty snapshot) succeeds. -/
theorem iterate_value_access_safe_witness :
    ∃ m itb, Reader.iterate st5.world st5.mems oneView = some (m, itb) :=
  iterate_value_access_safe reach_st5 oneView (by decide) (Or.inr (by decide))

end RmfTask
